import Mathlib

/-!
# Verification of `StableBinaryHeap`

A shallow embedding of the `StableBinaryHeap` Rust crate
(`src/lib.rs`, `src/item.rs`) together with proofs of the behavioural
properties stated in its specification.

* `HeapItem` and its comparator are translated from `src/item.rs`.
* The stable heap container and its operations are translated from
  `src/lib.rs`.
* The underlying priority queue `std::collections::BinaryHeap` is an
  external building block of the crate (the spec treats it as a supplied
  collaborator); it is modelled here as the classic binary array max-heap
  on a `List`, mirroring the `std` algorithms (append + sift-up on push,
  move-last-to-root + sift-down on pop, `Vec`-order iteration).

The user payload type is `α` with `[Ord α]`, mirroring the Rust bound
`T: Ord`; theorems assume `Batteries.TransOrd α`, which is exactly the
coherence contract Rust's `Ord` trait demands (totality, symmetry and
transitivity of `compare`).  Note that `compare a b = .eq` does *not*
force `a = b`: payloads that the user order considers equal may still be
distinguishable, which is what makes stability observable.
-/

open Batteries (OrientedCmp TransCmp OrientedOrd TransOrd)

/-- The wrapper stored in the heap (`src/item.rs`): a user value together
with the insertion sequence number (field `counter`). -/
structure HeapItem (α : Type) where
  inner : α
  counter : Nat
deriving DecidableEq

namespace HeapItem

/-- `HeapItem::new` (`src/item.rs`). -/
def new (inner : α) (pos : Nat) : HeapItem α :=
  { inner := inner, counter := pos }

/-- `HeapItem::into_inner` (`src/item.rs`). -/
def into_inner (i : HeapItem α) : α := i.inner

/-- The comparator of `HeapItem` (`src/item.rs`, `PartialOrd`/`Ord`):
compare the payloads with the user order; on a tie, compare the sequence
numbers and reverse the result. -/
def cmp [Ord α] (a b : HeapItem α) : Ordering :=
  let c := compare a.inner b.inner
  if c = Ordering.eq then (compare a.counter b.counter).swap else c

/-- Equality of entries (`src/item.rs`, `PartialEq`): equal sequence
numbers and payloads that the user order considers equal. -/
def eqv [Ord α] (a b : HeapItem α) : Prop :=
  a.counter = b.counter ∧ compare a.inner b.inner = Ordering.eq

end HeapItem

/-! ## The underlying binary heap

Modelled from the spec: the crate's external building block
`std::collections::BinaryHeap` ("binary array heap", §1/§6 of the spec) is
not part of the repository's sources.  We model its backing `Vec` as a
`List (HeapItem α)` and mirror the `std` algorithms: `push` appends and
sifts the new element up (comparisons exactly as in `std`: swap while the
parent compares `.lt` against the element); `pop` removes the root,
moves the last element to the root and sifts it down, always descending
towards the larger child; `peek` reads index 0; iteration, `drain` and
`into_vec` expose the backing vector's order.  Sifting is implemented
with an explicit fuel argument (structural recursion) so that every
operation evaluates by `decide`/`rfl`; the fuel given at the call sites
is always sufficient. -/

/-- Swap positions `i` and `j` of the backing array (no-op out of range). -/
def swapL {β : Type} (l : List β) (i j : Nat) : List β :=
  match l[i]?, l[j]? with
  | some x, some y => (l.set i y).set j x
  | _, _ => l

/-- Sift the element at index `k` up towards the root, swapping it with
its parent `(k-1)/2` while the parent compares `.lt` against it
(`std` sift-up).  `fuel ≥ k` suffices since the index strictly
decreases. -/
def siftUpFuel {α : Type} [Ord α] :
    Nat → List (HeapItem α) → Nat → List (HeapItem α)
  | 0, l, _ => l
  | _ + 1, l, 0 => l
  | fuel + 1, l, j + 1 =>
    match l[j + 1]?, l[j / 2]? with
    | some x, some y =>
      if HeapItem.cmp y x = Ordering.lt then
        siftUpFuel fuel (swapL l (j / 2) (j + 1)) (j / 2)
      else l
    | _, _ => l

/-- Sift-up with always-sufficient fuel. -/
def siftUp {α : Type} [Ord α] (l : List (HeapItem α)) (k : Nat) :
    List (HeapItem α) :=
  siftUpFuel k l k

/-- `BinaryHeap::push`: append at the end, then sift the new element up. -/
def heapPush {α : Type} [Ord α] (l : List (HeapItem α)) (x : HeapItem α) :
    List (HeapItem α) :=
  siftUp (l ++ [x]) l.length

/-- The index of the larger child of `i`, if `i` has any children
(`std` child selection: take the right child iff the left one compares
`.lt` against it). -/
def maxChildIdx {α : Type} [Ord α] (l : List (HeapItem α)) (i : Nat) :
    Option Nat :=
  match l[2 * i + 1]?, l[2 * i + 2]? with
  | some lc, some rc =>
    some (if HeapItem.cmp lc rc = Ordering.lt then 2 * i + 2 else 2 * i + 1)
  | some _, none => some (2 * i + 1)
  | _, _ => none

/-- Sift the element at index `i` down, swapping it with its larger child
while that child compares greater.  `fuel ≥ l.length - i` suffices since
the index strictly increases. -/
def siftDownFuel {α : Type} [Ord α] :
    Nat → List (HeapItem α) → Nat → List (HeapItem α)
  | 0, l, _ => l
  | fuel + 1, l, i =>
    match maxChildIdx l i with
    | none => l
    | some c =>
      match l[i]?, l[c]? with
      | some x, some y =>
        if HeapItem.cmp x y = Ordering.lt then
          siftDownFuel fuel (swapL l i c) c
        else l
      | _, _ => l

/-- Sift-down with always-sufficient fuel. -/
def siftDown {α : Type} [Ord α] (l : List (HeapItem α)) (i : Nat) :
    List (HeapItem α) :=
  siftDownFuel l.length l i

/-- `BinaryHeap::pop`: return the root; move the last element to the root
and sift it down. -/
def popMaxList {α : Type} [Ord α] (l : List (HeapItem α)) :
    Option (HeapItem α) × List (HeapItem α) :=
  match l with
  | [] => (none, [])
  | x :: xs =>
    (some x,
      siftDown (((x :: xs).set 0 ((x :: xs).getLast (List.cons_ne_nil x xs))).dropLast) 0)

/-- Pop every element of the heap, in pop order.  `fuel ≥ l.length`
suffices since popping shrinks the heap. -/
def popAllFuel {α : Type} [Ord α] :
    Nat → List (HeapItem α) → List (HeapItem α)
  | 0, _ => []
  | fuel + 1, l =>
    match popMaxList l with
    | (none, _) => []
    | (some x, rest) => x :: popAllFuel fuel rest

/-- The full pop sequence of a heap. -/
def popAllList {α : Type} [Ord α] (l : List (HeapItem α)) :
    List (HeapItem α) :=
  popAllFuel l.length l

/-! ## The stable heap (`src/lib.rs`) -/

/-- `StableBinaryHeap` (`src/lib.rs`): the underlying heap's backing
array plus the sequence counter.  The capacity of the backing `Vec` is
allocation-only state with no observable effect on the container's
contents and is not modelled. -/
structure StableBinaryHeap (α : Type) where
  heap : List (HeapItem α)
  counter : Nat

namespace StableBinaryHeap

variable {α : Type}

/-- `StableBinaryHeap::new`. -/
def new : StableBinaryHeap α := { heap := [], counter := 0 }

/-- `StableBinaryHeap::with_capacity` (capacity is allocation-only). -/
def with_capacity (_capacity : Nat) : StableBinaryHeap α :=
  { heap := [], counter := 0 }

/-- `StableBinaryHeap::new_item`: wrap a value with the current counter. -/
def new_item (s : StableBinaryHeap α) (inner : α) : HeapItem α :=
  HeapItem.new inner s.counter

/-- `StableBinaryHeap::push`: wrap, bump the counter, insert. -/
def push [Ord α] (s : StableBinaryHeap α) (item : α) : StableBinaryHeap α :=
  { heap := heapPush s.heap (s.new_item item), counter := s.counter + 1 }

/-- `StableBinaryHeap::push_raw`: insert an existing entry, advancing the
counter to at least its sequence number. -/
def push_raw [Ord α] (s : StableBinaryHeap α) (item : HeapItem α) :
    StableBinaryHeap α :=
  { heap := heapPush s.heap item, counter := Nat.max s.counter item.counter }

/-- `StableBinaryHeap::len`. -/
def len (s : StableBinaryHeap α) : Nat := s.heap.length

/-- `StableBinaryHeap::clear`: drop all entries, reset the counter. -/
def clear (_s : StableBinaryHeap α) : StableBinaryHeap α :=
  { heap := [], counter := 0 }

/-- `StableBinaryHeap::is_empty`. -/
def is_empty (s : StableBinaryHeap α) : Bool := s.heap.isEmpty

/-- `StableBinaryHeap::iter`: the contained values in the backing
array's (heap-internal) order. -/
def iterVals (s : StableBinaryHeap α) : List α :=
  s.heap.map HeapItem.inner

/-- `StableBinaryHeap::peek_mut`: the entry a `PeekMut` handle would
expose; `none` exactly when the heap is empty. -/
def peek_mut (s : StableBinaryHeap α) : Option (HeapItem α) := s.heap[0]?

/-- `StableBinaryHeap::into_vec`: the backing array's order, unwrapped. -/
def into_vec (s : StableBinaryHeap α) : List α :=
  s.heap.map HeapItem.into_inner

/-- The sequence emitted by `IntoIterSorted` (`src/lib.rs`): repeatedly
pop the underlying heap and unwrap. -/
def into_iter_sorted [Ord α] (s : StableBinaryHeap α) : List α :=
  (popAllList s.heap).map HeapItem.into_inner

/-- `StableBinaryHeap::into_sorted_vec`: collect `into_iter_sorted`. -/
def into_sorted_vec [Ord α] (s : StableBinaryHeap α) : List α :=
  into_iter_sorted s

/-- `StableBinaryHeap::pop`. -/
def pop [Ord α] (s : StableBinaryHeap α) :
    Option α × StableBinaryHeap α :=
  match popMaxList s.heap with
  | (o, rest) => (o.map HeapItem.into_inner, { heap := rest, counter := s.counter })

/-- `StableBinaryHeap::peek`. -/
def peek (s : StableBinaryHeap α) : Option α :=
  s.heap[0]?.map HeapItem.inner

/-- `StableBinaryHeap::retain`: drain the backing array (in its order),
keep the entries whose value satisfies `f`, reinsert them via
`push_raw`. -/
def retain [Ord α] (s : StableBinaryHeap α) (f : α → Bool) :
    StableBinaryHeap α :=
  (s.heap.filter fun i => f i.inner).foldl push_raw
    { heap := [], counter := s.counter }

/-- `Extend::extend` (`src/lib.rs`): push every value in order. -/
def extend [Ord α] (s : StableBinaryHeap α) (xs : List α) :
    StableBinaryHeap α :=
  xs.foldl push s

/-- `IntoIterator::into_iter` (`src/lib.rs`): iterate `into_vec`. -/
def into_iterList (s : StableBinaryHeap α) : List α := into_vec s

/-- Modelled from the spec: `drain()` (§4.4/§6).  The source contains the
`Drain` adapter (a wrapper of `binary_heap::Drain` whose `Iterator` impl
unwraps each entry, `src/lib.rs`) but no public method that produces one;
per the spec, draining lazily yields all contained values in arbitrary
(non-sorted; here: backing-array) order, removing them, and leaves the
heap empty.  The counter is untouched (§4.5: only `clear` resets it). -/
def drain (s : StableBinaryHeap α) : List α × StableBinaryHeap α :=
  (s.heap.map HeapItem.into_inner, { heap := [], counter := s.counter })

/-- The public mutating operations of the stable heap (§6 of the spec). -/
inductive Op (α : Type) where
  | push (a : α)
  | pop
  | retain (p : α → Bool)
  | clear
  | extend (xs : List α)

/-- Apply one public mutating operation. -/
def applyOp [Ord α] (s : StableBinaryHeap α) : Op α → StableBinaryHeap α
  | .push a => s.push a
  | .pop => (s.pop).2
  | .retain p => s.retain p
  | .clear => s.clear
  | .extend xs => s.extend xs

/-- The state reached from `new` by a sequence of public operations. -/
def runOps [Ord α] (ops : List (Op α)) : StableBinaryHeap α :=
  ops.foldl applyOp new

end StableBinaryHeap

/-- The entries a sequence of pushes starting at counter value `c`
creates: `xs[k]` is wrapped with sequence number `c + k`. -/
def itemsFrom {α : Type} (c : Nat) : List α → List (HeapItem α)
  | [] => []
  | a :: t => HeapItem.new a c :: itemsFrom (c + 1) t

/-- The max-heap property of a backing array: every entry compares at
most its parent. -/
def heapProp {α : Type} [Ord α] (l : List (HeapItem α)) : Prop :=
  ∀ j x y, 0 < j → l[j]? = some x → l[(j - 1) / 2]? = some y →
    HeapItem.cmp y x ≠ Ordering.lt

/-- The sift-up loop invariant: the heap property holds at every
parent-child pair except possibly at `k` itself, and the children of `k`
already compare at most the *grandparent* of `k` (so a swap at `k` keeps
them in order). -/
def upInv {α : Type} [Ord α] (l : List (HeapItem α)) (k : Nat) : Prop :=
  (∀ j x y, 0 < j → j ≠ k → l[j]? = some x → l[(j - 1) / 2]? = some y →
    HeapItem.cmp y x ≠ Ordering.lt) ∧
  (0 < k → ∀ c x g, (c = 2 * k + 1 ∨ c = 2 * k + 2) → l[c]? = some x →
    l[(k - 1) / 2]? = some g → HeapItem.cmp g x ≠ Ordering.lt)

/-- The sift-down loop invariant: the heap property holds at every
parent-child pair except possibly below `i`, and the children of `i`
already compare at most the grandparent of `i`. -/
def downInv {α : Type} [Ord α] (l : List (HeapItem α)) (i : Nat) : Prop :=
  (∀ j x y, 0 < j → (j - 1) / 2 ≠ i → l[j]? = some x → l[(j - 1) / 2]? = some y →
    HeapItem.cmp y x ≠ Ordering.lt) ∧
  (0 < i → ∀ c x g, (c = 2 * i + 1 ∨ c = 2 * i + 2) → l[c]? = some x →
    l[(i - 1) / 2]? = some g → HeapItem.cmp g x ≠ Ordering.lt)

/-- The data invariant of every reachable `StableBinaryHeap` state: the
backing array is a max-heap, every stored sequence number is below the
counter, and the stored sequence numbers are pairwise distinct. -/
def sbhInv {α : Type} [Ord α] (s : StableBinaryHeap α) : Prop :=
  heapProp s.heap ∧
  (∀ it ∈ s.heap, it.counter < s.counter) ∧
  (s.heap.map HeapItem.counter).Nodup

section OrderingFacts

theorem Ordering.swap_eq_gt_iff {o : Ordering} : o.swap = .gt ↔ o = .lt := by
  cases o <;> simp [Ordering.swap]

theorem Ordering.swap_eq_lt_iff {o : Ordering} : o.swap = .lt ↔ o = .gt := by
  cases o <;> simp [Ordering.swap]

theorem Ordering.swap_eq_eq_iff {o : Ordering} : o.swap = .eq ↔ o = .eq := by
  cases o <;> simp [Ordering.swap]

theorem Ordering.swap_ne_gt_iff {o : Ordering} : o.swap ≠ .gt ↔ o ≠ .lt :=
  not_congr Ordering.swap_eq_gt_iff

theorem Ordering.swap_ne_lt_iff {o : Ordering} : o.swap ≠ .lt ↔ o ≠ .gt :=
  not_congr Ordering.swap_eq_lt_iff

end OrderingFacts

namespace HeapItem

variable {α : Type} [Ord α]

theorem cmp_def (a b : HeapItem α) :
    cmp a b =
      if compare a.inner b.inner = Ordering.eq then
        (compare a.counter b.counter).swap
      else compare a.inner b.inner := rfl

theorem cmp_of_ne (a b : HeapItem α) (h : compare a.inner b.inner ≠ Ordering.eq) :
    cmp a b = compare a.inner b.inner := by
  simp [cmp_def, h]

theorem cmp_of_eq (a b : HeapItem α) (h : compare a.inner b.inner = Ordering.eq) :
    cmp a b = (compare a.counter b.counter).swap := by
  simp [cmp_def, h]

variable [TransOrd α]

instance instOrientedCmp : OrientedCmp (cmp (α := α)) where
  symm a b := by
    rcases h : compare a.inner b.inner with _ | _ | _
    · have h' : compare b.inner a.inner = Ordering.gt := by
        have hs : (compare a.inner b.inner).swap = compare b.inner a.inner :=
          OrientedCmp.symm a.inner b.inner
        rw [← hs, h]; rfl
      simp only [cmp_def, h, h']
      rfl
    · have h' : compare b.inner a.inner = Ordering.eq :=
        OrientedCmp.cmp_eq_eq_symm.mp h
      have hnat : (compare a.counter b.counter).swap = compare b.counter a.counter :=
        OrientedCmp.symm a.counter b.counter
      simp [cmp_def, h, h', ← hnat]
    · have h' : compare b.inner a.inner = Ordering.lt := by
        have hs : (compare a.inner b.inner).swap = compare b.inner a.inner :=
          OrientedCmp.symm a.inner b.inner
        rw [h] at hs; exact hs.symm ▸ rfl
      simp only [cmp_def, h, h']
      rfl

instance instTransCmp : TransCmp (cmp (α := α)) where
  le_trans {a b c} h1 h2 := by
    rcases hab : compare a.inner b.inner with _ | _ | _ <;>
      rcases hbc : compare b.inner c.inner with _ | _ | _
    · -- lt, lt
      have : compare a.inner c.inner = Ordering.lt := TransCmp.lt_trans hab hbc
      simp [cmp_def, this]
    · -- lt, eq
      have : compare a.inner c.inner = Ordering.lt := by
        have hcr : compare a.inner b.inner = compare a.inner c.inner :=
          TransCmp.cmp_congr_right hbc
        rw [← hcr]; exact hab
      simp [cmp_def, this]
    · -- lt, gt : h2 is a contradiction
      exact absurd (by simp [cmp_def, hbc]) h2
    · -- eq, lt
      have : compare a.inner c.inner = Ordering.lt := by
        have hcl : compare a.inner c.inner = compare b.inner c.inner :=
          TransCmp.cmp_congr_left hab
        rw [hcl]; exact hbc
      simp [cmp_def, this]
    · -- eq, eq : compare counters
      have hac : compare a.inner c.inner = Ordering.eq := by
        have hcl : compare a.inner c.inner = compare b.inner c.inner :=
          TransCmp.cmp_congr_left hab
        rw [hcl]; exact hbc
      rw [cmp_of_eq _ _ hab] at h1
      rw [cmp_of_eq _ _ hbc] at h2
      rw [cmp_of_eq _ _ hac]
      rw [Ordering.swap_ne_gt_iff] at h1 h2 ⊢
      exact TransCmp.ge_trans h1 h2
    · -- eq, gt : contradiction
      exact absurd (by simp [cmp_def, hbc]) h2
    · -- gt, _ : h1 is a contradiction
      exact absurd (by simp [cmp_def, hab]) h1
    · exact absurd (by simp [cmp_def, hab]) h1
    · exact absurd (by simp [cmp_def, hab]) h1

end HeapItem

/-! ## Basic facts about the heap model -/

section SwapFacts

variable {β : Type}

theorem swapL_length (l : List β) (i j : Nat) :
    (swapL l i j).length = l.length := by
  unfold swapL
  rcases l[i]? with _ | x <;> rcases l[j]? with _ | y <;> simp

theorem swapL_getElem_other (l : List β) {i j k : Nat}
    (hki : k ≠ i) (hkj : k ≠ j) : (swapL l i j)[k]? = l[k]? := by
  unfold swapL
  rcases l[i]? with _ | x <;> rcases l[j]? with _ | y <;>
    simp [List.getElem?_set, hki.symm, hkj.symm]

theorem swapL_getElem_left (l : List β) {i j : Nat}
    (hi : i < l.length) (hj : j < l.length) :
    (swapL l i j)[i]? = l[j]? := by
  unfold swapL
  rw [List.getElem?_eq_getElem hi, List.getElem?_eq_getElem hj]
  by_cases hij : i = j
  · subst hij
    simp [List.getElem?_set, hi]
  · simp [List.getElem?_set, Ne.symm hij, hi, List.getElem?_eq_getElem hj]

theorem swapL_getElem_right (l : List β) {i j : Nat}
    (hi : i < l.length) (hj : j < l.length) :
    (swapL l i j)[j]? = l[i]? := by
  unfold swapL
  rw [List.getElem?_eq_getElem hi, List.getElem?_eq_getElem hj]
  simp [List.getElem?_set, hj, List.length_set, List.getElem?_eq_getElem hi]

theorem set_cons_perm {t : List β} {y a : β} :
    ∀ {m : Nat}, t[m]? = some y → (y :: t.set m a).Perm (a :: t) := by
  induction t with
  | nil => intro m h; simp at h
  | cons b t2 ih =>
    intro m h
    match m with
    | 0 =>
      simp only [List.getElem?_cons_zero, Option.some.injEq] at h
      subst h
      simp only [List.set_cons_zero]
      exact List.Perm.swap a b t2
    | Nat.succ k =>
      simp at h
      have step := ih (m := k) h
      rw [List.set_cons_succ]
      exact ((List.Perm.swap b y (t2.set k a)).trans (step.cons b)).trans
        (List.Perm.swap a b t2)

theorem set_set_perm :
    ∀ (l : List β) (i j : Nat) (x y : β), l[i]? = some x → l[j]? = some y →
      ((l.set i y).set j x).Perm l := by
  intro l
  induction l with
  | nil => intro i j x y hx; simp at hx
  | cons a t ih =>
    intro i j x y hx hy
    match i, j with
    | 0, 0 =>
      simp only [List.getElem?_cons_zero, Option.some.injEq] at hx hy
      subst hx
      subst hy
      simp
    | 0, Nat.succ m =>
      simp only [List.getElem?_cons_zero, Option.some.injEq] at hx
      simp only [List.getElem?_cons_succ] at hy
      subst hx
      simp only [List.set_cons_zero, List.set_cons_succ]
      exact set_cons_perm hy
    | Nat.succ n, 0 =>
      simp only [List.getElem?_cons_succ] at hx
      simp only [List.getElem?_cons_zero, Option.some.injEq] at hy
      subst hy
      simp only [List.set_cons_succ, List.set_cons_zero]
      exact set_cons_perm hx
    | Nat.succ n, Nat.succ m =>
      simp only [List.getElem?_cons_succ] at hx hy
      simp only [List.set_cons_succ]
      exact (ih n m x y hx hy).cons a

theorem swapL_perm (l : List β) (i j : Nat) : (swapL l i j).Perm l := by
  unfold swapL
  rcases hx : l[i]? with _ | x <;> rcases hy : l[j]? with _ | y
  · exact List.Perm.refl l
  · exact List.Perm.refl l
  · exact List.Perm.refl l
  · exact set_set_perm l i j x y hx hy

end SwapFacts

section SiftFacts

variable {α : Type} [Ord α]

theorem siftUpFuel_length (fuel : Nat) :
    ∀ (l : List (HeapItem α)) (k : Nat), (siftUpFuel fuel l k).length = l.length := by
  induction fuel with
  | zero => intro l k; rfl
  | succ fuel ih =>
    intro l k
    match k with
    | 0 => rfl
    | Nat.succ j =>
      unfold siftUpFuel
      rcases l[j + 1]? with _ | x <;> rcases l[j / 2]? with _ | y <;> simp
      split
      · rw [ih, swapL_length]
      · rfl

theorem siftUpFuel_perm (fuel : Nat) :
    ∀ (l : List (HeapItem α)) (k : Nat), (siftUpFuel fuel l k).Perm l := by
  induction fuel with
  | zero => intro l k; exact List.Perm.refl l
  | succ fuel ih =>
    intro l k
    match k with
    | 0 => exact List.Perm.refl l
    | Nat.succ j =>
      unfold siftUpFuel
      rcases l[j + 1]? with _ | x <;> rcases l[j / 2]? with _ | y
      · exact List.Perm.refl l
      · exact List.Perm.refl l
      · exact List.Perm.refl l
      · simp only []
        split
        · exact (ih _ _).trans (swapL_perm l _ _)
        · exact List.Perm.refl l

theorem siftUp_perm (l : List (HeapItem α)) (k : Nat) : (siftUp l k).Perm l :=
  siftUpFuel_perm k l k

theorem siftUp_length (l : List (HeapItem α)) (k : Nat) :
    (siftUp l k).length = l.length :=
  siftUpFuel_length k l k

theorem heapPush_perm (l : List (HeapItem α)) (x : HeapItem α) :
    (heapPush l x).Perm (x :: l) :=
  (siftUp_perm _ _).trans (List.perm_append_singleton x l)

theorem heapPush_length (l : List (HeapItem α)) (x : HeapItem α) :
    (heapPush l x).length = l.length + 1 := by
  unfold heapPush
  rw [siftUp_length]
  simp

theorem siftDownFuel_length (fuel : Nat) :
    ∀ (l : List (HeapItem α)) (i : Nat), (siftDownFuel fuel l i).length = l.length := by
  induction fuel with
  | zero => intro l i; rfl
  | succ fuel ih =>
    intro l i
    unfold siftDownFuel
    rcases maxChildIdx l i with _ | c
    · rfl
    · simp only []
      rcases l[i]? with _ | x <;> rcases l[c]? with _ | y
      · rfl
      · rfl
      · rfl
      · simp only []
        split
        · rw [ih, swapL_length]
        · rfl

theorem siftDownFuel_perm (fuel : Nat) :
    ∀ (l : List (HeapItem α)) (i : Nat), (siftDownFuel fuel l i).Perm l := by
  induction fuel with
  | zero => intro l i; exact List.Perm.refl l
  | succ fuel ih =>
    intro l i
    unfold siftDownFuel
    rcases maxChildIdx l i with _ | c
    · exact List.Perm.refl l
    · simp only []
      rcases l[i]? with _ | x <;> rcases l[c]? with _ | y
      · exact List.Perm.refl l
      · exact List.Perm.refl l
      · exact List.Perm.refl l
      · simp only []
        split
        · exact (ih _ _).trans (swapL_perm l _ _)
        · exact List.Perm.refl l

theorem siftDown_perm (l : List (HeapItem α)) (i : Nat) :
    (siftDown l i).Perm l :=
  siftDownFuel_perm l.length l i

theorem siftDown_length (l : List (HeapItem α)) (i : Nat) :
    (siftDown l i).length = l.length :=
  siftDownFuel_length l.length l i

theorem popMax_fst (x : HeapItem α) (xs : List (HeapItem α)) :
    (popMaxList (x :: xs)).1 = some x := rfl

theorem popMax_rest_perm (x : HeapItem α) (xs : List (HeapItem α)) :
    (popMaxList (x :: xs)).2.Perm xs := by
  have hrest : (popMaxList (x :: xs)).2 =
      siftDown (((x :: xs).set 0 ((x :: xs).getLast (List.cons_ne_nil x xs))).dropLast) 0 := rfl
  rw [hrest]
  refine (siftDown_perm _ 0).trans ?_
  rcases List.eq_nil_or_concat xs with hnil | ⟨ys, y, hconcat⟩
  · subst hnil; simp
  · rw [List.concat_eq_append] at hconcat
    subst hconcat
    have hlast : (x :: (ys ++ [y])).getLast (List.cons_ne_nil _ _) = y := by
      have h1 : (x :: (ys ++ [y])).getLast? = some y := by
        rw [show x :: (ys ++ [y]) = (x :: ys) ++ [y] by simp]
        exact List.getLast?_concat _
      have h2 := List.getLast?_eq_getLast (x :: (ys ++ [y])) (List.cons_ne_nil _ _)
      rw [h2] at h1
      exact (Option.some.injEq _ _).mp h1
    simp only [List.set_cons_zero, hlast]
    have hdrop : (y :: (ys ++ [y])).dropLast = y :: ys := by
      rw [show y :: (ys ++ [y]) = (y :: ys) ++ [y] by simp]
      exact List.dropLast_concat
    rw [hdrop]
    exact (List.perm_append_singleton y ys).symm

theorem popMax_rest_length (x : HeapItem α) (xs : List (HeapItem α)) :
    (popMaxList (x :: xs)).2.length = xs.length :=
  (popMax_rest_perm x xs).length_eq

theorem popAllFuel_perm (fuel : Nat) :
    ∀ (l : List (HeapItem α)), l.length ≤ fuel → (popAllFuel fuel l).Perm l := by
  induction fuel with
  | zero =>
    intro l hl
    have : l = [] := List.length_eq_zero.mp (Nat.le_zero.mp hl)
    subst this
    exact List.Perm.refl []
  | succ fuel ih =>
    intro l hl
    rcases l with _ | ⟨x, xs⟩
    · exact List.Perm.refl []
    · show (x :: popAllFuel fuel (popMaxList (x :: xs)).2).Perm (x :: xs)
      have hlen : (popMaxList (x :: xs)).2.length ≤ fuel := by
        rw [popMax_rest_length]
        exact Nat.lt_succ_iff.mp (Nat.lt_of_lt_of_le (by simp) hl)
      exact ((ih _ hlen).trans (popMax_rest_perm x xs)).cons x

theorem popAllList_perm (l : List (HeapItem α)) : (popAllList l).Perm l :=
  popAllFuel_perm l.length l (le_refl _)

end SiftFacts

/-! ## The heap property -/

section HeapPropFacts

variable {α : Type} [Ord α] [TransOrd α]

theorem heapProp_nil : heapProp ([] : List (HeapItem α)) := by
  intro j x y hj hx
  simp at hx

theorem heapProp_root_max {l : List (HeapItem α)} (hp : heapProp l)
    {r : HeapItem α} (hr : l[0]? = some r) :
    ∀ (k : Nat) (x : HeapItem α), l[k]? = some x → HeapItem.cmp r x ≠ Ordering.lt := by
  intro k
  induction k using Nat.strong_induction_on with
  | _ k ih =>
    intro x hx
    match k with
    | 0 =>
      rw [hr] at hx
      cases hx
      have hrr : HeapItem.cmp r r = Ordering.eq := OrientedCmp.cmp_refl
      simp [hrr]
    | Nat.succ j =>
      have hk : j + 1 < l.length := (List.getElem?_eq_some_iff.mp hx).1
      have hplt : (j + 1 - 1) / 2 < j + 1 := by omega
      have hpl : (j + 1 - 1) / 2 < l.length := lt_trans hplt hk
      have hy := List.getElem?_eq_getElem hpl
      have h1 := hp (j + 1) x _ (Nat.succ_pos j) hx hy
      have h2 := ih _ hplt _ hy
      exact TransCmp.ge_trans h2 h1

theorem heapProp_root_max_mem {l : List (HeapItem α)} (hp : heapProp l)
    {r : HeapItem α} (hr : l[0]? = some r) :
    ∀ x ∈ l, HeapItem.cmp r x ≠ Ordering.lt := by
  intro x hx
  obtain ⟨k, hk⟩ := List.mem_iff_getElem?.mp hx
  exact heapProp_root_max hp hr k x hk

theorem maxChildIdx_eq_some {l : List (HeapItem α)} {i c : Nat}
    (h : maxChildIdx l i = some c) :
    (c = 2 * i + 1 ∨ c = 2 * i + 2) ∧ c < l.length ∧ i < c := by
  unfold maxChildIdx at h
  rcases h1 : l[2 * i + 1]? with _ | lc <;> rcases h2 : l[2 * i + 2]? with _ | rc <;>
    rw [h1, h2] at h
  · simp at h
  · simp at h
  · simp at h
    have hb := (List.getElem?_eq_some_iff.mp h1).1
    exact ⟨Or.inl h.symm, by omega, by omega⟩
  · simp at h
    have hb1 := (List.getElem?_eq_some_iff.mp h1).1
    have hb2 := (List.getElem?_eq_some_iff.mp h2).1
    split at h
    · exact ⟨Or.inr h.symm, by omega, by omega⟩
    · exact ⟨Or.inl h.symm, by omega, by omega⟩

theorem maxChildIdx_eq_none {l : List (HeapItem α)} {i : Nat}
    (h : maxChildIdx l i = none) :
    l[2 * i + 1]? = none ∧ l[2 * i + 2]? = none := by
  unfold maxChildIdx at h
  rcases h1 : l[2 * i + 1]? with _ | lc <;> rcases h2 : l[2 * i + 2]? with _ | rc <;>
    rw [h1, h2] at h
  · exact ⟨rfl, rfl⟩
  · have hb1 := List.getElem?_eq_none_iff.mp h1
    have : l[2 * i + 2]? = none := List.getElem?_eq_none (by omega)
    rw [this] at h2
    cases h2
  · simp at h
  · simp at h

theorem maxChildIdx_is_max {l : List (HeapItem α)} {i c : Nat} {y : HeapItem α}
    (h : maxChildIdx l i = some c) (hcy : l[c]? = some y) :
    ∀ j x, (j = 2 * i + 1 ∨ j = 2 * i + 2) → l[j]? = some x →
      HeapItem.cmp y x ≠ Ordering.lt := by
  unfold maxChildIdx at h
  rcases h1 : l[2 * i + 1]? with _ | lc <;> rcases h2 : l[2 * i + 2]? with _ | rc <;>
    rw [h1, h2] at h
  · simp at h
  · simp at h
  · -- only the left child exists
    simp at h
    intro j x hj hx
    rw [← h] at hcy
    rcases hj with hj | hj
    · subst hj
      rw [hcy] at hx
      cases hx
      have hyy : HeapItem.cmp y y = Ordering.eq := OrientedCmp.cmp_refl
      simp [hyy]
    · subst hj
      rw [h2] at hx
      cases hx
  · -- both children exist
    simp at h
    intro j x hj hx
    split at h
    · -- the right child is the larger one
      rename_i hlr
      rw [← h] at hcy
      rw [h2] at hcy
      cases hcy
      rcases hj with hj | hj
      · subst hj
        rw [h1] at hx
        cases hx
        have hgt : HeapItem.cmp y lc = Ordering.gt := OrientedCmp.cmp_eq_gt.mpr hlr
        simp [hgt]
      · subst hj
        rw [h2] at hx
        cases hx
        have hyy : HeapItem.cmp y y = Ordering.eq := OrientedCmp.cmp_refl
        simp [hyy]
    · -- the left child is the larger one
      rename_i hlr
      rw [← h] at hcy
      rw [h1] at hcy
      cases hcy
      rcases hj with hj | hj
      · subst hj
        rw [h1] at hx
        cases hx
        have hyy : HeapItem.cmp y y = Ordering.eq := OrientedCmp.cmp_refl
        simp [hyy]
      · subst hj
        rw [h2] at hx
        cases hx
        exact hlr

end HeapPropFacts

/-! ## Sift-up establishes the heap property -/

section SiftUpCorrect

variable {α : Type} [Ord α] [TransOrd α]

theorem upInv_stop_zero {l : List (HeapItem α)} (h : upInv l 0) : heapProp l :=
  fun j x y hj hx hy => h.1 j x y hj (by omega) hx hy

theorem upInv_stop {l : List (HeapItem α)} {j : Nat} {x y : HeapItem α}
    (h : upInv l (j + 1)) (hx : l[j + 1]? = some x) (hy : l[j / 2]? = some y)
    (hge : HeapItem.cmp y x ≠ Ordering.lt) : heapProp l := by
  intro i a b hi ha hb
  by_cases hik : i = j + 1
  · subst hik
    rw [hx] at ha
    cases ha
    rw [show (j + 1 - 1) / 2 = j / 2 by omega] at hb
    rw [hy] at hb
    cases hb
    exact hge
  · exact h.1 i a b hi hik ha hb

theorem upInv_step {l : List (HeapItem α)} {j : Nat} {x y : HeapItem α}
    (h : upInv l (j + 1)) (hx : l[j + 1]? = some x) (hy : l[j / 2]? = some y)
    (hlt : HeapItem.cmp y x = Ordering.lt) :
    upInv (swapL l (j / 2) (j + 1)) (j / 2) := by
  obtain ⟨hA, hB⟩ := h
  have hkl : j + 1 < l.length := (List.getElem?_eq_some_iff.mp hx).1
  have hpl : j / 2 < l.length := by omega
  have e1 : (swapL l (j / 2) (j + 1))[j / 2]? = some x := by
    rw [swapL_getElem_left l hpl hkl]; exact hx
  have e2 : (swapL l (j / 2) (j + 1))[j + 1]? = some y := by
    rw [swapL_getElem_right l hpl hkl]; exact hy
  have e3 : ∀ m, m ≠ j / 2 → m ≠ j + 1 → (swapL l (j / 2) (j + 1))[m]? = l[m]? :=
    fun m h1 h2 => swapL_getElem_other l h1 h2
  constructor
  · -- all pairs except at the new position j / 2
    intro i a b hi hne ha hb
    by_cases hik : i = j + 1
    · -- the swapped-down element, now below the moved element
      subst hik
      rw [e2] at ha
      cases ha
      rw [show (j + 1 - 1) / 2 = j / 2 by omega] at hb
      rw [e1] at hb
      cases hb
      have hgt : HeapItem.cmp x y = Ordering.gt := OrientedCmp.cmp_eq_gt.mpr hlt
      simp [hgt]
    · by_cases hpc : (i - 1) / 2 = j + 1
      · -- a child of the old position j + 1
        have hibig : j + 1 < i := by omega
        rw [e3 i (by omega) hik] at ha
        rw [hpc, e2] at hb
        cases hb
        exact hB (Nat.succ_pos j) i a y (by omega) ha
          (by rw [show (j + 1 - 1) / 2 = j / 2 by omega]; exact hy)
      · by_cases hpp : (i - 1) / 2 = j / 2
        · -- a sibling of the old position j + 1
          rw [e3 i hne hik] at ha
          rw [hpp, e1] at hb
          cases hb
          have h1 : HeapItem.cmp y a ≠ Ordering.lt := by
            refine hA i a y hi hik ha ?_
            rw [hpp]; exact hy
          have h2 : HeapItem.cmp x y ≠ Ordering.lt := by
            have hgt : HeapItem.cmp x y = Ordering.gt := OrientedCmp.cmp_eq_gt.mpr hlt
            simp [hgt]
          exact TransCmp.ge_trans h2 h1
        · -- untouched pair
          rw [e3 i hne hik] at ha
          rw [e3 _ hpp hpc] at hb
          exact hA i a b hi hik ha hb
  · -- the children of j / 2 stay below its (unchanged) parent
    intro hp0 c a g hc ha hg
    have hkc : j + 1 = 2 * (j / 2) + 1 ∨ j + 1 = 2 * (j / 2) + 2 := by omega
    have hgpar : (j / 2 - 1) / 2 ≠ j / 2 := by omega
    have hgpar2 : (j / 2 - 1) / 2 ≠ j + 1 := by omega
    rw [e3 _ hgpar hgpar2] at hg
    by_cases hck : c = j + 1
    · subst hck
      rw [e2] at ha
      cases ha
      exact hA (j / 2) y g hp0 (by omega) hy hg
    · have hcp : c ≠ j / 2 := by omega
      rw [e3 c hcp hck] at ha
      have h1 : HeapItem.cmp y a ≠ Ordering.lt := by
        refine hA c a y (by omega) hck ha ?_
        rw [show (c - 1) / 2 = j / 2 by omega]
        exact hy
      have h2 : HeapItem.cmp g y ≠ Ordering.lt :=
        hA (j / 2) y g hp0 (by omega) hy hg
      exact TransCmp.ge_trans h2 h1

theorem siftUpFuel_heapProp :
    ∀ (fuel : Nat) (l : List (HeapItem α)) (k : Nat), k ≤ fuel →
      upInv l k → heapProp (siftUpFuel fuel l k) := by
  intro fuel
  induction fuel with
  | zero =>
    intro l k hk h
    have hz : k = 0 := by omega
    subst hz
    exact upInv_stop_zero h
  | succ fuel ih =>
    intro l k hk h
    match k with
    | 0 => exact upInv_stop_zero h
    | Nat.succ j =>
      show heapProp (siftUpFuel (fuel + 1) l (j + 1))
      unfold siftUpFuel
      rcases hx : l[j + 1]? with _ | x <;> rcases hy : l[j / 2]? with _ | y
      · -- the sift position is out of range: nothing was appended there
        intro i a b hi ha hb
        by_cases hik : i = j + 1
        · subst hik; rw [hx] at ha; cases ha
        · exact h.1 i a b hi hik ha hb
      · intro i a b hi ha hb
        by_cases hik : i = j + 1
        · subst hik; rw [hx] at ha; cases ha
        · exact h.1 i a b hi hik ha hb
      · -- parent position missing although child exists: impossible
        have hkl : j + 1 < l.length := (List.getElem?_eq_some_iff.mp hx).1
        have hpl : j / 2 < l.length := by omega
        rw [List.getElem?_eq_getElem hpl] at hy
        cases hy
      · dsimp only
        split
        · rename_i hlt
          exact ih _ _ (by omega) (upInv_step h hx hy hlt)
        · rename_i hge
          exact upInv_stop h hx hy hge

theorem upInv_push {l : List (HeapItem α)} (hp : heapProp l) (x : HeapItem α) :
    upInv (l ++ [x]) l.length := by
  constructor
  · intro j a b hj hne ha hb
    have hjl : j < (l ++ [x]).length := (List.getElem?_eq_some_iff.mp ha).1
    have hjl2 : j < l.length := by
      simp at hjl
      omega
    rw [List.getElem?_append_left (by omega)] at ha
    rw [List.getElem?_append_left (by omega)] at hb
    exact hp j a b hj ha hb
  · intro hl0 c a g hc ha hg
    have hcl : c < (l ++ [x]).length := (List.getElem?_eq_some_iff.mp ha).1
    simp at hcl
    omega

theorem heapPush_heapProp {l : List (HeapItem α)} (hp : heapProp l)
    (x : HeapItem α) : heapProp (heapPush l x) :=
  siftUpFuel_heapProp l.length (l ++ [x]) l.length (le_refl _) (upInv_push hp x)

end SiftUpCorrect

/-! ## Sift-down re-establishes the heap property after a pop -/

section SiftDownCorrect

variable {α : Type} [Ord α] [TransOrd α]

theorem downInv_stop_far {l : List (HeapItem α)} {i : Nat} (h : downInv l i)
    (hfar : l.length ≤ 2 * i + 1) : heapProp l := by
  intro j a b hj ha hb
  by_cases hpj : (j - 1) / 2 = i
  · have hjl : j < l.length := (List.getElem?_eq_some_iff.mp ha).1
    omega
  · exact h.1 j a b hj hpj ha hb

theorem downInv_stop_ge {l : List (HeapItem α)} {i c : Nat} {x y : HeapItem α}
    (h : downInv l i) (hmc : maxChildIdx l i = some c)
    (hx : l[i]? = some x) (hy : l[c]? = some y)
    (hge : HeapItem.cmp x y ≠ Ordering.lt) : heapProp l := by
  intro j a b hj ha hb
  by_cases hpj : (j - 1) / 2 = i
  · -- j is a child of i
    have hchild : j = 2 * i + 1 ∨ j = 2 * i + 2 := by omega
    rw [hpj, hx] at hb
    cases hb
    have h1 : HeapItem.cmp y a ≠ Ordering.lt := maxChildIdx_is_max hmc hy j a hchild ha
    exact TransCmp.ge_trans hge h1
  · exact h.1 j a b hj hpj ha hb

theorem downInv_step {l : List (HeapItem α)} {i c : Nat} {x y : HeapItem α}
    (h : downInv l i) (hmc : maxChildIdx l i = some c)
    (hx : l[i]? = some x) (hy : l[c]? = some y)
    (hlt : HeapItem.cmp x y = Ordering.lt) :
    downInv (swapL l i c) c := by
  obtain ⟨hA, hB⟩ := h
  obtain ⟨hcc, hcl, hic⟩ := maxChildIdx_eq_some hmc
  have hil : i < l.length := by omega
  have e1 : (swapL l i c)[i]? = some y := by
    rw [swapL_getElem_left l hil hcl]; exact hy
  have e2 : (swapL l i c)[c]? = some x := by
    rw [swapL_getElem_right l hil hcl]; exact hx
  have e3 : ∀ m, m ≠ i → m ≠ c → (swapL l i c)[m]? = l[m]? :=
    fun m h1 h2 => swapL_getElem_other l h1 h2
  constructor
  · intro j a b hj hpj ha hb
    by_cases hji : j = i
    · -- position i itself: its parent is unchanged, use invariant (B)
      subst hji
      have hi0 : 0 < j := hj
      rw [e1] at ha
      cases ha
      have hp1 : (j - 1) / 2 ≠ j := by omega
      have hp2 : (j - 1) / 2 ≠ c := by omega
      rw [e3 _ hp1 hp2] at hb
      exact hB hi0 c y b (by omega) hy hb
    · by_cases hjc : j = c
      · -- position c: now holds the old parent value, and x < y
        subst hjc
        rw [e2] at ha
        cases ha
        have hpc : (j - 1) / 2 = i := by omega
        rw [hpc, e1] at hb
        cases hb
        have hgt : HeapItem.cmp y x = Ordering.gt := OrientedCmp.cmp_eq_gt.mpr hlt
        simp [hgt]
      · by_cases hpji : (j - 1) / 2 = i
        · -- the sibling of c below the moved-up child value
          have hsib : j = 2 * i + 1 ∨ j = 2 * i + 2 := by omega
          rw [e3 j hji hjc] at ha
          rw [hpji, e1] at hb
          cases hb
          exact maxChildIdx_is_max hmc hy j a hsib ha
        · -- untouched pair
          rw [e3 j hji hjc] at ha
          rw [e3 _ hpji hpj] at hb
          exact hA j a b hj hpji ha hb
  · -- children of c stay below its new value (the old child value y)
    intro hc0 d a g hd ha hg
    have hd1 : d ≠ i := by omega
    have hd2 : d ≠ c := by omega
    rw [e3 d hd1 hd2] at ha
    have hpc : (c - 1) / 2 = i := by omega
    rw [hpc, e1] at hg
    cases hg
    exact hA d a y (by omega) (by omega) ha
      (by rw [show (d - 1) / 2 = c by omega]; exact hy)

theorem siftDownFuel_heapProp :
    ∀ (fuel : Nat) (l : List (HeapItem α)) (i : Nat), l.length ≤ fuel + i →
      downInv l i → heapProp (siftDownFuel fuel l i) := by
  intro fuel
  induction fuel with
  | zero =>
    intro l i hf h
    have hres : heapProp l := downInv_stop_far h (by omega)
    exact hres
  | succ fuel ih =>
    intro l i hf h
    unfold siftDownFuel
    rcases hmc : maxChildIdx l i with _ | c
    · obtain ⟨h1, _⟩ := maxChildIdx_eq_none hmc
      have hlen := List.getElem?_eq_none_iff.mp h1
      have hres : heapProp l := downInv_stop_far h (by omega)
      exact hres
    · obtain ⟨hcc, hcl, hic⟩ := maxChildIdx_eq_some hmc
      have hil : i < l.length := by omega
      show heapProp (match l[i]?, l[c]? with
        | some x, some y =>
          if HeapItem.cmp x y = Ordering.lt then
            siftDownFuel fuel (swapL l i c) c
          else l
        | _, _ => l)
      rcases hx : l[i]? with _ | x
      · rw [List.getElem?_eq_getElem hil] at hx
        cases hx
      · rcases hy : l[c]? with _ | y
        · rw [List.getElem?_eq_getElem hcl] at hy
          cases hy
        · show heapProp (if HeapItem.cmp x y = Ordering.lt then
            siftDownFuel fuel (swapL l i c) c else l)
          split
          · rename_i hlt
            refine ih _ _ ?_ (downInv_step h hmc hx hy hlt)
            rw [swapL_length]
            omega
          · rename_i hge
            exact downInv_stop_ge h hmc hx hy hge

theorem downInv_popInit {α : Type} [Ord α] [TransOrd α]
    {x : HeapItem α} {xs : List (HeapItem α)} (hp : heapProp (x :: xs))
    (g : HeapItem α) : downInv (((x :: xs).set 0 g).dropLast) 0 := by
  constructor
  · intro j a b hj hpj ha hb
    rw [List.getElem?_dropLast] at ha hb
    split at ha
    · split at hb
      · rw [List.getElem?_set] at ha hb
        rw [if_neg (by omega)] at ha
        rw [if_neg (by omega)] at hb
        exact hp j a b hj ha hb
      · cases hb
    · cases ha
  · intro h0
    omega

theorem popMax_heapProp {l : List (HeapItem α)} (hp : heapProp l) :
    heapProp (popMaxList l).2 := by
  rcases l with _ | ⟨x, xs⟩
  · exact heapProp_nil
  · show heapProp (siftDown _ 0)
    exact siftDownFuel_heapProp _ _ 0 (by omega) (downInv_popInit hp _)

theorem popAllFuel_sorted :
    ∀ (fuel : Nat) (l : List (HeapItem α)), l.length ≤ fuel → heapProp l →
      List.Pairwise (fun a b => HeapItem.cmp a b ≠ Ordering.lt) (popAllFuel fuel l) := by
  intro fuel
  induction fuel with
  | zero => intro l hl hp; exact List.Pairwise.nil
  | succ fuel ih =>
    intro l hl hp
    rcases l with _ | ⟨x, xs⟩
    · exact List.Pairwise.nil
    · show List.Pairwise _ (x :: popAllFuel fuel (popMaxList (x :: xs)).2)
      have hrl : (popMaxList (x :: xs)).2.length ≤ fuel := by
        rw [popMax_rest_length]
        simp at hl
        omega
      constructor
      · intro b hb
        have hbrest : b ∈ (popMaxList (x :: xs)).2 :=
          (popAllFuel_perm fuel _ hrl).mem_iff.mp hb
        have hbxs : b ∈ xs := (popMax_rest_perm x xs).mem_iff.mp hbrest
        have hr0 : (x :: xs)[0]? = some x := by simp
        exact heapProp_root_max_mem hp hr0 b (List.mem_cons_of_mem x hbxs)
      · exact ih _ hrl (popMax_heapProp hp)

theorem popAllList_sorted {l : List (HeapItem α)} (hp : heapProp l) :
    List.Pairwise (fun a b => HeapItem.cmp a b ≠ Ordering.lt) (popAllList l) :=
  popAllFuel_sorted l.length l (le_refl _) hp

end SiftDownCorrect

/-! ## Entry comparator: tie characterisation -/

section CmpFacts

variable {α : Type} [Ord α]

theorem HeapItem.cmp_eq_eq_iff {a b : HeapItem α} :
    HeapItem.cmp a b = Ordering.eq ↔
      (compare a.inner b.inner = Ordering.eq ∧ a.counter = b.counter) := by
  rw [HeapItem.cmp_def]
  by_cases h : compare a.inner b.inner = Ordering.eq
  · rw [if_pos h]
    rw [Ordering.swap_eq_eq_iff, Nat.compare_eq_eq]
    exact ⟨fun hc => ⟨h, hc⟩, fun hc => hc.2⟩
  · rw [if_neg h]
    exact ⟨fun hc => absurd hc h, fun hc => absurd hc.1 h⟩

theorem HeapItem.counter_eq_of_cmp_eq {a b : HeapItem α}
    (h : HeapItem.cmp a b = Ordering.eq) : a.counter = b.counter :=
  (HeapItem.cmp_eq_eq_iff.mp h).2

end CmpFacts

/-! ## The stable heap invariant is preserved by every operation -/

namespace StableBinaryHeap

variable {α : Type} [Ord α] [TransOrd α]

theorem foldl_push_raw_heap_perm :
    ∀ (ts : List (HeapItem α)) (s : StableBinaryHeap α),
      ((ts.foldl push_raw s).heap).Perm (s.heap ++ ts) := by
  intro ts
  induction ts with
  | nil => intro s; simp
  | cons t ts ih =>
    intro s
    show ((ts.foldl push_raw (s.push_raw t)).heap).Perm (s.heap ++ t :: ts)
    refine (ih (s.push_raw t)).trans ?_
    show ((heapPush s.heap t) ++ ts).Perm (s.heap ++ t :: ts)
    refine (List.Perm.append_right ts (heapPush_perm s.heap t)).trans ?_
    exact List.perm_middle.symm

omit [TransOrd α] in
theorem foldl_push_raw_counter :
    ∀ (ts : List (HeapItem α)) (s : StableBinaryHeap α),
      (ts.foldl push_raw s).counter =
        ts.foldl (fun c it => Nat.max c it.counter) s.counter := by
  intro ts
  induction ts with
  | nil => intro s; rfl
  | cons t ts ih => intro s; exact ih (s.push_raw t)

theorem foldl_push_raw_heapProp :
    ∀ (ts : List (HeapItem α)) (s : StableBinaryHeap α), heapProp s.heap →
      heapProp ((ts.foldl push_raw s).heap) := by
  intro ts
  induction ts with
  | nil => intro s h; exact h
  | cons t ts ih =>
    intro s h
    exact ih (s.push_raw t) (heapPush_heapProp h t)

theorem retain_heap_perm (s : StableBinaryHeap α) (f : α → Bool) :
    ((s.retain f).heap).Perm (s.heap.filter fun i => f i.inner) := by
  show (((s.heap.filter fun i => f i.inner).foldl push_raw _).heap).Perm _
  refine (foldl_push_raw_heap_perm _ _).trans ?_
  simp

omit [TransOrd α] in
theorem foldl_max_counter_eq {c : Nat} :
    ∀ (ts : List (HeapItem α)), (∀ it ∈ ts, it.counter ≤ c) →
      ts.foldl (fun c it => Nat.max c it.counter) c = c := by
  intro ts
  induction ts with
  | nil => intro h; rfl
  | cons t ts ih =>
    intro h
    show ts.foldl _ (Nat.max c t.counter) = c
    have hmax : Nat.max c t.counter = c :=
      max_eq_left (h t (List.mem_cons_self t ts))
    rw [hmax]
    exact ih fun it hit => h it (List.mem_cons_of_mem t hit)

omit [TransOrd α] in
theorem retain_counter_eq {s : StableBinaryHeap α}
    (hle : ∀ it ∈ s.heap, it.counter ≤ s.counter) (f : α → Bool) :
    (s.retain f).counter = s.counter := by
  show ((s.heap.filter fun i => f i.inner).foldl push_raw _).counter = s.counter
  rw [foldl_push_raw_counter]
  exact foldl_max_counter_eq _ fun it hit =>
    hle it (List.mem_of_mem_filter hit)

theorem sbhInv_new : sbhInv (new : StableBinaryHeap α) :=
  ⟨heapProp_nil, fun it hit => absurd hit (List.not_mem_nil it), List.nodup_nil⟩

theorem sbhInv_push {s : StableBinaryHeap α} (h : sbhInv s) (a : α) :
    sbhInv (s.push a) := by
  obtain ⟨hh, hc, hn⟩ := h
  have hperm : ((s.push a).heap).Perm (s.new_item a :: s.heap) :=
    heapPush_perm s.heap (s.new_item a)
  refine ⟨heapPush_heapProp hh _, ?_, ?_⟩
  · intro it hit
    have hmem2 : it ∈ s.new_item a :: s.heap := hperm.mem_iff.mp hit
    rcases List.mem_cons.mp hmem2 with hhead | htail
    · subst hhead
      show s.counter < s.counter + 1
      omega
    · have := hc it htail
      show it.counter < s.counter + 1
      omega
  · have hmapperm := hperm.map HeapItem.counter
    refine (hmapperm.symm.nodup ?_)
    show (s.counter :: s.heap.map HeapItem.counter).Nodup
    refine List.nodup_cons.mpr ⟨?_, hn⟩
    intro hmem
    obtain ⟨it, hit, hcnt⟩ := List.mem_map.mp hmem
    have := hc it hit
    omega

omit [TransOrd α] in
theorem pop_def (s : StableBinaryHeap α) :
    s.pop = ((popMaxList s.heap).1.map HeapItem.into_inner,
      { heap := (popMaxList s.heap).2, counter := s.counter }) := rfl

theorem sbhInv_pop {s : StableBinaryHeap α} (h : sbhInv s) :
    sbhInv (s.pop).2 := by
  obtain ⟨hh, hc, hn⟩ := h
  rcases hheap : s.heap with _ | ⟨x, xs⟩
  · refine ⟨?_, ?_, ?_⟩
    · show heapProp (popMaxList s.heap).2
      rw [hheap]
      exact heapProp_nil
    · intro it hit
      show it.counter < s.counter
      have : (popMaxList s.heap).2 = [] := by rw [hheap]; rfl
      rw [pop_def] at hit
      simp only [this] at hit
      exact absurd hit (List.not_mem_nil it)
    · show ((popMaxList s.heap).2.map HeapItem.counter).Nodup
      rw [hheap]
      exact List.nodup_nil
  · have hperm : ((popMaxList s.heap).2).Perm xs := by
      rw [hheap]; exact popMax_rest_perm x xs
    refine ⟨popMax_heapProp hh, ?_, ?_⟩
    · intro it hit
      have hmem : it ∈ xs := hperm.mem_iff.mp hit
      exact hc it (by rw [hheap]; exact List.mem_cons_of_mem x hmem)
    · have h1 : (((popMaxList s.heap).2).map HeapItem.counter).Perm
          (xs.map HeapItem.counter) := hperm.map _
      refine h1.symm.nodup ?_
      have : ((x :: xs).map HeapItem.counter).Nodup := by rw [← hheap]; exact hn
      exact (List.nodup_cons.mp this).2

theorem sbhInv_retain {s : StableBinaryHeap α} (h : sbhInv s) (f : α → Bool) :
    sbhInv (s.retain f) := by
  obtain ⟨hh, hc, hn⟩ := h
  have hcnt : (s.retain f).counter = s.counter :=
    retain_counter_eq (fun it hit => Nat.le_of_lt (hc it hit)) f
  have hperm := retain_heap_perm s f
  refine ⟨?_, ?_, ?_⟩
  · exact foldl_push_raw_heapProp _ _ heapProp_nil
  · intro it hit
    rw [hcnt]
    have := hperm.mem_iff.mp hit
    exact hc it (List.mem_of_mem_filter this)
  · refine (hperm.map HeapItem.counter).symm.nodup ?_
    exact List.Nodup.sublist ((List.filter_sublist s.heap).map _) hn

theorem sbhInv_extend {s : StableBinaryHeap α} (h : sbhInv s) (xs : List α) :
    sbhInv (s.extend xs) := by
  induction xs generalizing s with
  | nil => exact h
  | cons a xs ih => exact ih (sbhInv_push h a)

theorem sbhInv_applyOp {s : StableBinaryHeap α} (h : sbhInv s) (op : Op α) :
    sbhInv (applyOp s op) := by
  cases op with
  | push a => exact sbhInv_push h a
  | pop => exact sbhInv_pop h
  | retain p => exact sbhInv_retain h p
  | clear => exact sbhInv_new
  | extend xs => exact sbhInv_extend h xs

theorem sbhInv_runOps (ops : List (Op α)) : sbhInv (runOps ops) := by
  have main : ∀ (ops2 : List (Op α)) (s : StableBinaryHeap α), sbhInv s →
      sbhInv (ops2.foldl applyOp s) := by
    intro ops2
    induction ops2 with
    | nil => intro s h; exact h
    | cons op ops2 ih => intro s h; exact ih _ (sbhInv_applyOp h op)
  exact main ops new sbhInv_new

theorem extend_counter :
    ∀ (xs : List α) (s : StableBinaryHeap α),
      (s.extend xs).counter = s.counter + xs.length := by
  intro xs
  induction xs with
  | nil => intro s; simp [extend]
  | cons a xs ih =>
    intro s
    show ((s.push a).extend xs).counter = _
    rw [ih]
    show (s.counter + 1) + xs.length = s.counter + (xs.length + 1)
    omega

theorem extend_heap_perm :
    ∀ (xs : List α) (s : StableBinaryHeap α),
      ((s.extend xs).heap).Perm (s.heap ++ itemsFrom s.counter xs) := by
  intro xs
  induction xs with
  | nil => intro s; simp [extend, itemsFrom]
  | cons a xs ih =>
    intro s
    show (((s.push a).extend xs).heap).Perm _
    refine (ih (s.push a)).trans ?_
    show (((s.push a).heap) ++ itemsFrom (s.counter + 1) xs).Perm _
    have h1 : ((s.push a).heap).Perm (HeapItem.new a s.counter :: s.heap) :=
      heapPush_perm s.heap _
    refine (List.Perm.append_right _ h1).trans ?_
    show ((HeapItem.new a s.counter :: s.heap) ++ itemsFrom (s.counter + 1) xs).Perm
      (s.heap ++ (HeapItem.new a s.counter :: itemsFrom (s.counter + 1) xs))
    exact List.perm_middle.symm

end StableBinaryHeap

/-! ## A nonincreasing sequence with distinct tie-breakers is unique -/

section SortedUnique

variable {α : Type} [Ord α] [TransOrd α]

theorem sorted_nodup_counters_unique :
    ∀ {zs ws : List (HeapItem α)}, zs.Perm ws →
      List.Pairwise (fun a b => HeapItem.cmp a b ≠ Ordering.lt) zs →
      List.Pairwise (fun a b => HeapItem.cmp a b ≠ Ordering.lt) ws →
      (zs.map HeapItem.counter).Nodup → zs = ws := by
  intro zs
  induction zs with
  | nil =>
    intro ws hperm hz hw hn
    exact (hperm.symm.eq_nil).symm
  | cons a zs ih =>
    intro ws hperm hz hw hn
    rcases ws with _ | ⟨b, ws2⟩
    · cases hperm.eq_nil
    · by_cases hab : a = b
      · subst hab
        have htail : zs.Perm ws2 := hperm.cons_inv
        have hz2 := (List.pairwise_cons.mp hz).2
        have hw2 := (List.pairwise_cons.mp hw).2
        have hn2 : (zs.map HeapItem.counter).Nodup :=
          (List.nodup_cons.mp hn).2
        rw [ih htail hz2 hw2 hn2]
      · exfalso
        have hbmem : b ∈ a :: zs := hperm.mem_iff.mpr (List.mem_cons_self b ws2)
        have hbzs : b ∈ zs := by
          rcases List.mem_cons.mp hbmem with hh | ht
          · exact absurd hh.symm hab
          · exact ht
        have hamem : a ∈ b :: ws2 := hperm.mem_iff.mp (List.mem_cons_self a zs)
        have haws : a ∈ ws2 := by
          rcases List.mem_cons.mp hamem with hh | ht
          · exact absurd hh hab
          · exact ht
        have r1 : HeapItem.cmp a b ≠ Ordering.lt :=
          (List.pairwise_cons.mp hz).1 b hbzs
        have r2 : HeapItem.cmp b a ≠ Ordering.lt :=
          (List.pairwise_cons.mp hw).1 a haws
        have r3 : HeapItem.cmp a b ≠ Ordering.gt := OrientedCmp.cmp_ne_gt.mpr r2
        have heq : HeapItem.cmp a b = Ordering.eq := by
          rcases hcase : HeapItem.cmp a b with _ | _ | _
          · exact absurd hcase r1
          · rfl
          · exact absurd hcase r3
        have hcn : a.counter = b.counter := HeapItem.counter_eq_of_cmp_eq heq
        have : a.counter ∈ zs.map HeapItem.counter := by
          rw [hcn]
          exact List.mem_map.mpr ⟨b, hbzs, rfl⟩
        exact (List.nodup_cons.mp hn).1 this

end SortedUnique

/-! ## Bridge lemmas towards the specification claims -/

section BridgeFacts

variable {α : Type} [Ord α]

theorem itemsFrom_map_into_inner :
    ∀ (c : Nat) (xs : List α), (itemsFrom c xs).map HeapItem.into_inner = xs := by
  intro c xs
  induction xs generalizing c with
  | nil => rfl
  | cons a xs ih =>
    show HeapItem.into_inner (HeapItem.new a c) :: (itemsFrom (c + 1) xs).map _ = a :: xs
    rw [ih (c + 1)]
    rfl

theorem tie_counter_lt {a b : HeapItem α} (hge : HeapItem.cmp a b ≠ Ordering.lt)
    (heq : compare a.inner b.inner = Ordering.eq) (hne : a.counter ≠ b.counter) :
    a.counter < b.counter := by
  rw [HeapItem.cmp_of_eq a b heq] at hge
  rw [Ordering.swap_ne_lt_iff] at hge
  have h1 : ¬ (b.counter < a.counter) := fun hlt => hge (Nat.compare_eq_gt.mpr hlt)
  omega

theorem popMaxList_fst_none_iff (l : List (HeapItem α)) :
    (popMaxList l).1 = none ↔ l = [] := by
  rcases l with _ | ⟨x, xs⟩
  · simp [popMaxList]
  · simp [popMaxList]

theorem popMaxList_snd_length (l : List (HeapItem α)) :
    (popMaxList l).2.length = l.length - 1 := by
  rcases l with _ | ⟨x, xs⟩
  · rfl
  · rw [popMax_rest_length]
    rfl

end BridgeFacts

namespace StableBinaryHeap

variable {α : Type} [Ord α]

theorem pop_fst_none_iff (s : StableBinaryHeap α) :
    (s.pop).1 = none ↔ s.len = 0 := by
  rw [pop_def]
  show ((popMaxList s.heap).1.map HeapItem.into_inner) = none ↔ _
  rw [Option.map_eq_none', popMaxList_fst_none_iff]
  show s.heap = [] ↔ s.heap.length = 0
  rw [List.length_eq_zero]

theorem peek_none_iff (s : StableBinaryHeap α) :
    s.peek = none ↔ s.len = 0 := by
  show (s.heap[0]?.map HeapItem.inner) = none ↔ _
  rw [Option.map_eq_none']
  show s.heap[0]? = none ↔ s.heap.length = 0
  rcases s.heap with _ | ⟨x, xs⟩
  · simp
  · simp

theorem peek_mut_none_iff (s : StableBinaryHeap α) :
    s.peek_mut = none ↔ s.len = 0 := by
  show s.heap[0]? = none ↔ s.heap.length = 0
  rcases s.heap with _ | ⟨x, xs⟩
  · simp
  · simp

theorem pop_of_empty (s : StableBinaryHeap α) (h : s.len = 0) :
    s.pop = (none, s) := by
  have hnil : s.heap = [] := List.length_eq_zero.mp h
  rw [pop_def, hnil]
  show ((none : Option (HeapItem α)).map _, _) = (none, s)
  rcases s with ⟨sh, sc⟩
  simp at hnil
  subst hnil
  rfl

theorem pop_counter (s : StableBinaryHeap α) : (s.pop).2.counter = s.counter := rfl

theorem pop_len (s : StableBinaryHeap α) : (s.pop).2.len = s.len - 1 := by
  show (popMaxList s.heap).2.length = s.heap.length - 1
  exact popMaxList_snd_length s.heap

end StableBinaryHeap

/-! ## The specification claims -/

open StableBinaryHeap

/-- **C1.** For every heap built by any sequence of push operations (with
an `Ord` payload), `into_sorted_vec` / `into_iter_sorted` fully consumes
the heap and produces the values in descending order under the user
ordering, and among any subsequence of values that compare equal under
the user ordering, exactly in their original relative insertion order:
the popped entries are a permutation of the pushed values tagged with
their insertion positions; the two extraction operations agree; the
emitted values are a permutation of the input, pairwise non-ascending
under the user order, and entries with user-equal values appear in
strictly increasing insertion order. -/
theorem spec_C1 {α : Type} [Ord α] [TransOrd α] (xs : List α) :
    (popAllList ((extend new xs).heap)).Perm (itemsFrom 0 xs)
    ∧ into_sorted_vec (extend new xs)
        = (popAllList ((extend new xs).heap)).map HeapItem.into_inner
    ∧ into_iter_sorted (extend new xs) = into_sorted_vec (extend new xs)
    ∧ (into_sorted_vec (extend new xs)).Perm xs
    ∧ List.Pairwise (fun a b => compare a.inner b.inner ≠ Ordering.lt)
        (popAllList ((extend new xs).heap))
    ∧ List.Pairwise
        (fun a b => compare a.inner b.inner = Ordering.eq → a.counter < b.counter)
        (popAllList ((extend new xs).heap)) := by
  have hinv := sbhInv_extend (sbhInv_new (α := α)) xs
  have hp := hinv.1
  have hperm0 : ((extend new xs).heap).Perm (itemsFrom 0 xs) := by
    have h := extend_heap_perm xs new
    simpa using h
  have hout : (popAllList ((extend new xs).heap)).Perm (itemsFrom 0 xs) :=
    (popAllList_perm _).trans hperm0
  have hsorted := popAllList_sorted hp
  have hnodup : ((popAllList ((extend new xs).heap)).map HeapItem.counter).Nodup :=
    (((popAllList_perm _).map HeapItem.counter).symm).nodup hinv.2.2
  refine ⟨hout, rfl, rfl, ?_, ?_, ?_⟩
  · have h := hout.map HeapItem.into_inner
    rw [itemsFrom_map_into_inner] at h
    exact h
  · refine hsorted.imp ?_
    intro a b hab hlt
    apply hab
    rw [HeapItem.cmp_of_ne a b (by simp [hlt])]
    exact hlt
  · have hcne : List.Pairwise (fun a b : HeapItem α => a.counter ≠ b.counter)
        (popAllList ((extend new xs).heap)) := List.pairwise_map.mp hnodup
    refine (hsorted.and hcne).imp ?_
    intro a b hab heq
    exact tie_counter_lt hab.1 heq hab.2

/-- Witness for C1 at a concrete input with a duplicated value. -/
theorem spec_C1_witness :
    (into_sorted_vec (extend new [2, 1, 2])).Perm [2, 1, 2] :=
  (spec_C1 [2, 1, 2]).2.2.2.1

/-- **C2.** The entry comparator: unequal payloads compare exactly as the
user order; user-equal payloads compare as the reversed numeric
comparison of the sequence numbers, so the entry with the smaller
sequence number compares as larger. -/
theorem spec_C2 {α : Type} [Ord α] (a b : HeapItem α) :
    (compare a.inner b.inner ≠ Ordering.eq →
      HeapItem.cmp a b = compare a.inner b.inner)
    ∧ (compare a.inner b.inner = Ordering.eq →
      HeapItem.cmp a b = (compare a.counter b.counter).swap)
    ∧ (compare a.inner b.inner = Ordering.eq → a.counter < b.counter →
      HeapItem.cmp a b = Ordering.gt) := by
  refine ⟨HeapItem.cmp_of_ne a b, HeapItem.cmp_of_eq a b, ?_⟩
  intro heq hlt
  rw [HeapItem.cmp_of_eq a b heq, Ordering.swap_eq_gt_iff]
  exact Nat.compare_eq_lt.mpr hlt

/-- Witness for C2: with equal payloads, the earlier entry compares
greater. -/
theorem spec_C2_witness :
    HeapItem.cmp (HeapItem.new 5 0) (HeapItem.new (5 : Nat) 1) = Ordering.gt :=
  (spec_C2 _ _).2.2 (by decide) (by decide)

/-- **C3.** On every state reachable from `new` (or `with_capacity`, which
builds the same state) by public operations: the counter bounds every
stored sequence number from above; the counter is `0` only when the heap
stores no entries; no operation other than `clear` can set a nonzero
counter to `0`; and `push_raw` advances the counter to the maximum of the
old counter and the inserted entry's sequence number, hence to at least
the latter. -/
theorem spec_C3 {α : Type} [Ord α] [TransOrd α] (ops : List (Op α)) :
    (∀ it ∈ (runOps ops).heap, it.counter ≤ (runOps ops).counter)
    ∧ ((runOps ops).counter = 0 → (runOps ops).heap = [])
    ∧ (∀ op : Op α, (applyOp (runOps ops) op).counter = 0 →
        op = Op.clear ∨ (runOps ops).counter = 0)
    ∧ (∀ (t : StableBinaryHeap α) (it : HeapItem α),
        (push_raw t it).counter = Nat.max t.counter it.counter
        ∧ it.counter ≤ (push_raw t it).counter)
    ∧ (∀ n : Nat, (with_capacity n : StableBinaryHeap α) = new) := by
  have hinv := sbhInv_runOps ops
  refine ⟨?_, ?_, ?_, ?_, fun n => rfl⟩
  · exact fun it hit => Nat.le_of_lt (hinv.2.1 it hit)
  · intro h0
    rcases hheap : (runOps ops).heap with _ | ⟨x, xs⟩
    · rfl
    · have hx := hinv.2.1 x (by rw [hheap]; exact List.mem_cons_self x xs)
      omega
  · intro op
    cases op with
    | push a =>
      intro h
      exact absurd h (Nat.succ_ne_zero _)
    | pop =>
      intro h
      exact Or.inr h
    | retain p =>
      intro h
      have hle : ∀ it ∈ (runOps ops).heap, it.counter ≤ (runOps ops).counter :=
        fun it hit => Nat.le_of_lt (hinv.2.1 it hit)
      rw [show applyOp (runOps ops) (Op.retain p) = retain (runOps ops) p from rfl,
        retain_counter_eq hle p] at h
      exact Or.inr h
    | clear =>
      intro h
      exact Or.inl rfl
    | extend xs =>
      intro h
      rw [show applyOp (runOps ops) (Op.extend xs) = extend (runOps ops) xs from rfl,
        extend_counter xs (runOps ops)] at h
      exact Or.inr (by omega)
  · intro t it
    exact ⟨rfl, Nat.le_max_right t.counter it.counter⟩

/-- Witness for C3: `with_capacity` builds the same state as `new`. -/
theorem spec_C3_witness :
    (with_capacity 3 : StableBinaryHeap Nat) = new :=
  (spec_C3 (α := Nat) []).2.2.2.2 3

/-- **C4.** After `retain p` the heap stores exactly the entries whose
value satisfies `p`, unchanged (hence with their original sequence
numbers), and the sorted extraction of the retained heap is exactly the
filtered sorted extraction of the original heap — the survivors' relative
order, ties included, is untouched. -/
theorem spec_C4 {α : Type} [Ord α] [TransOrd α] (ops : List (Op α)) (p : α → Bool) :
    ((retain (runOps ops) p).heap).Perm
      ((runOps ops).heap.filter fun it => p it.inner)
    ∧ popAllList ((retain (runOps ops) p).heap)
        = (popAllList (runOps ops).heap).filter (fun it => p it.inner)
    ∧ into_sorted_vec (retain (runOps ops) p)
        = ((popAllList (runOps ops).heap).filter (fun it => p it.inner)).map
            HeapItem.into_inner := by
  have hinvs := sbhInv_runOps ops
  have hinvr := sbhInv_retain hinvs p
  have hfilter : popAllList ((retain (runOps ops) p).heap)
      = (popAllList (runOps ops).heap).filter (fun it => p it.inner) := by
    refine sorted_nodup_counters_unique ?_ ?_ ?_ ?_
    · refine (popAllList_perm _).trans ?_
      refine (retain_heap_perm (runOps ops) p).trans ?_
      exact ((popAllList_perm (runOps ops).heap).filter _).symm
    · exact popAllList_sorted hinvr.1
    · exact List.Pairwise.sublist (List.filter_sublist _) (popAllList_sorted hinvs.1)
    · exact (((popAllList_perm _).map HeapItem.counter).symm).nodup hinvr.2.2
  refine ⟨retain_heap_perm (runOps ops) p, hfilter, ?_⟩
  show (popAllList ((retain (runOps ops) p).heap)).map HeapItem.into_inner = _
  rw [hfilter]

/-- Witness for C4 at the spec's own scenario: push `0..=5`, retain
values other than `2`. -/
theorem spec_C4_witness :
    ((retain (runOps [Op.extend [0, 1, 2, 3, 4, 5]]) (fun i => decide (i ≠ 2))).heap).Perm
      ((runOps [Op.extend [0, 1, 2, 3, 4, 5]] (α := Nat)).heap.filter
        fun it => decide (it.inner ≠ 2)) :=
  (spec_C4 [Op.extend [0, 1, 2, 3, 4, 5]] (fun i => decide (i ≠ 2))).1

/-- **C5.** `clear` removes all entries and resets the counter to `0`
(yielding exactly the freshly-constructed state), so pushing any sequence
afterwards produces exactly the same extraction order — by repeated pop
(`popAllList`), `into_iter_sorted`, or `into_sorted_vec` — as pushing it
into a fresh heap. -/
theorem spec_C5 {α : Type} [Ord α] (s : StableBinaryHeap α) (xs : List α) :
    clear s = (new : StableBinaryHeap α)
    ∧ (clear s).heap = [] ∧ (clear s).counter = 0
    ∧ into_sorted_vec (extend (clear s) xs) = into_sorted_vec (extend new xs)
    ∧ into_iter_sorted (extend (clear s) xs) = into_iter_sorted (extend new xs)
    ∧ popAllList ((extend (clear s) xs).heap) = popAllList ((extend new xs).heap) :=
  ⟨rfl, rfl, rfl, rfl, rfl, rfl⟩

/-- **C6.** The entry comparator is a total order: antisymmetric up to
entry equality (`PartialEq` on entries: equal sequence numbers and
user-equal payloads), transitive, and total; and entries with user-equal
payloads compare strictly by their sequence numbers. -/
theorem spec_C6 {α : Type} [Ord α] [TransOrd α] (a b c : HeapItem α) :
    (HeapItem.cmp a b ≠ Ordering.gt → HeapItem.cmp b a ≠ Ordering.gt →
      HeapItem.eqv a b)
    ∧ (HeapItem.cmp a b ≠ Ordering.gt → HeapItem.cmp b c ≠ Ordering.gt →
      HeapItem.cmp a c ≠ Ordering.gt)
    ∧ (HeapItem.cmp a b ≠ Ordering.gt ∨ HeapItem.cmp b a ≠ Ordering.gt)
    ∧ (compare a.inner b.inner = Ordering.eq → a.counter ≠ b.counter →
      (HeapItem.cmp a b = Ordering.gt ↔ a.counter < b.counter)) := by
  refine ⟨?_, ?_, ?_, ?_⟩
  · intro h1 h2
    have h2l : HeapItem.cmp a b ≠ Ordering.lt := OrientedCmp.cmp_ne_gt.mp h2
    have heq : HeapItem.cmp a b = Ordering.eq := by
      rcases hcase : HeapItem.cmp a b with _ | _ | _
      · exact absurd hcase h2l
      · rfl
      · exact absurd hcase h1
    have h := HeapItem.cmp_eq_eq_iff.mp heq
    exact ⟨h.2, h.1⟩
  · exact fun h1 h2 => TransCmp.le_trans h1 h2
  · by_cases h : HeapItem.cmp a b = Ordering.gt
    · refine Or.inr ?_
      have : HeapItem.cmp b a = Ordering.lt := OrientedCmp.cmp_eq_gt.mp h
      simp [this]
    · exact Or.inl h
  · intro heq hne
    rw [HeapItem.cmp_of_eq a b heq, Ordering.swap_eq_gt_iff]
    exact Nat.compare_eq_lt

/-- Witness for C6: strict comparison by sequence number on a tie. -/
theorem spec_C6_witness :
    HeapItem.cmp (HeapItem.new 1 0) (HeapItem.new (1 : Nat) 1) = Ordering.gt
      ↔ (0 : Nat) < 1 :=
  (spec_C6 (HeapItem.new 1 0) (HeapItem.new 1 1) (HeapItem.new 0 2)).2.2.2
    (by decide) (by decide)

/-- **C7.** On every reachable state: `pop`, `peek` and `peek_mut` report
"empty" exactly when the heap holds no entries; `pop` on an empty heap
leaves the state unchanged; `pop` never touches the counter, shrinks the
length by one, and on a non-empty heap removes and returns the value of a
maximal entry under the §4.1 comparator. -/
theorem spec_C7 {α : Type} [Ord α] [TransOrd α] (ops : List (Op α)) :
    ((pop (runOps ops)).1 = none ↔ len (runOps ops) = 0)
    ∧ (peek (runOps ops) = none ↔ len (runOps ops) = 0)
    ∧ (peek_mut (runOps ops) = none ↔ len (runOps ops) = 0)
    ∧ (len (runOps ops) = 0 → pop (runOps ops) = (none, runOps ops))
    ∧ (pop (runOps ops)).2.counter = (runOps ops).counter
    ∧ (pop (runOps ops)).2.len = len (runOps ops) - 1
    ∧ (∀ v, (pop (runOps ops)).1 = some v →
        ∃ it, it ∈ (runOps ops).heap ∧ HeapItem.into_inner it = v ∧
          (∀ it2 ∈ (runOps ops).heap, HeapItem.cmp it it2 ≠ Ordering.lt) ∧
          (it :: (pop (runOps ops)).2.heap).Perm (runOps ops).heap) := by
  have hinv := sbhInv_runOps ops
  refine ⟨pop_fst_none_iff _, peek_none_iff _, peek_mut_none_iff _,
    pop_of_empty _, pop_counter _, pop_len _, ?_⟩
  intro v hv
  rw [pop_def] at hv
  rcases hheap : (runOps ops).heap with _ | ⟨x, xs⟩
  · rw [hheap] at hv
    simp [popMaxList] at hv
  · rw [hheap] at hv
    rw [popMax_fst] at hv
    simp only [Option.map_some'] at hv
    cases hv
    have hp : heapProp (runOps ops).heap := hinv.1
    rw [hheap] at hp
    refine ⟨x, List.mem_cons_self x xs, rfl, ?_, ?_⟩
    · intro it2 hit2
      exact heapProp_root_max_mem hp (by simp) it2 hit2
    · show (x :: (popMaxList (runOps ops).heap).2).Perm (x :: xs)
      rw [hheap]
      exact (popMax_rest_perm x xs).cons x

/-- Witness for C7 at a concrete reachable state. -/
theorem spec_C7_witness :
    (pop (runOps [Op.push (5 : Nat)])).2.counter
      = (runOps [Op.push (5 : Nat)]).counter :=
  (spec_C7 [Op.push (5 : Nat)]).2.2.2.2.1

/-- **C8 (amended).** Consuming iteration via `IntoIterator` yields the
contained values in the backing array's (heap-internal) order — the
`into_vec` order — which is a permutation of the sorted pop sequence but
not in general equal to it. -/
theorem spec_C8 {α : Type} [Ord α] (ops : List (Op α)) :
    into_iterList (runOps ops) = into_vec (runOps ops)
    ∧ (into_iterList (runOps ops)).Perm (into_sorted_vec (runOps ops)) := by
  refine ⟨rfl, ?_⟩
  show ((runOps ops).heap.map HeapItem.into_inner).Perm
    ((popAllList (runOps ops).heap).map HeapItem.into_inner)
  exact ((popAllList_perm _).map HeapItem.into_inner).symm

/-- Counterexample to C8 as stated: after pushing `1, 2, 3`, consuming
iteration yields the backing-array order `[3, 1, 2]`, while the pop
sequence is `[3, 2, 1]`. -/
theorem spec_C8_counterexample :
    into_iterList (extend (new (α := Nat)) [1, 2, 3]) = [3, 1, 2]
    ∧ into_sorted_vec (extend (new (α := Nat)) [1, 2, 3]) = [3, 2, 1]
    ∧ into_iterList (extend (new (α := Nat)) [1, 2, 3])
        ≠ into_sorted_vec (extend (new (α := Nat)) [1, 2, 3]) :=
  ⟨by decide, by decide, by decide⟩

/-- **C9.** (modelled `drain()`) Draining yields exactly the contained
values — the backing array's order, a permutation of the full sorted
contents — removing them all: afterwards the heap is empty (the counter,
untouched by design, is unchanged). -/
theorem spec_C9 {α : Type} [Ord α] (ops : List (Op α)) :
    (drain (runOps ops)).1 = iterVals (runOps ops)
    ∧ ((drain (runOps ops)).1).Perm (into_sorted_vec (runOps ops))
    ∧ ((drain (runOps ops)).1).length = len (runOps ops)
    ∧ (drain (runOps ops)).2.heap = []
    ∧ len ((drain (runOps ops)).2) = 0
    ∧ ((drain (runOps ops)).2).counter = (runOps ops).counter := by
  refine ⟨rfl, ?_, ?_, rfl, rfl, rfl⟩
  · show ((runOps ops).heap.map HeapItem.into_inner).Perm
      ((popAllList (runOps ops).heap).map HeapItem.into_inner)
    exact ((popAllList_perm _).map HeapItem.into_inner).symm
  · show ((runOps ops).heap.map HeapItem.into_inner).length = (runOps ops).heap.length
    rw [List.length_map]

/-- **C10.** For every heap whose counter already bounds all stored
sequence numbers (true of every reachable heap), `retain` leaves the
counter exactly unchanged, whatever the predicate. -/
theorem spec_C10 {α : Type} [Ord α] (s : StableBinaryHeap α)
    (hle : ∀ it ∈ s.heap, it.counter ≤ s.counter) (p : α → Bool) :
    (retain s p).counter = s.counter :=
  retain_counter_eq hle p

/-- Witness for C10 at a concrete heap and predicate. -/
theorem spec_C10_witness :
    (retain { heap := [HeapItem.new (3 : Nat) 0], counter := 1 }
      (fun i => decide (i ≠ 3))).counter = 1 :=
  spec_C10 { heap := [HeapItem.new (3 : Nat) 0], counter := 1 } (by decide)
    (fun i => decide (i ≠ 3))
